import Mathlib

/-!
Verification of the scan-and-relate pipeline of `src/scanner.ts`
(claude-code-visualizer).  The TypeScript functions are shallowly embedded
as executable Lean definitions: JS strings become `String`/`List Char`,
the regex-based line parsing is modelled by explicit character scanning
that follows the backtracking semantics of the concrete regexes in the
source, and filesystem reads become explicit oracles.
-/

namespace Scanner

/-- Whitespace class used by the source's regexes (`\s`) and by
`String.prototype.trim`.  The JS class also contains further rare Unicode
space characters; the ones listed here cover the code points relevant to
front-matter text. -/
def jsSpace (c : Char) : Bool :=
  c == ' ' || c == '\t' || c == '\n' || c == '\r' || c == '\x0b' ||
  c == '\x0c' || c == '\u00A0' || c == '\uFEFF' || c == '\u2028' || c == '\u2029'

/-- JS `\w` word-character class: ASCII letters, digits and underscore. -/
def wordChar (c : Char) : Bool :=
  ('a' ≤ c && c ≤ 'z') || ('A' ≤ c && c ≤ 'Z') || ('0' ≤ c && c ≤ '9') || c == '_'

/-- JS `trim` on a character list: drop `jsSpace` characters from both ends. -/
def jsTrimList (cs : List Char) : List Char :=
  ((cs.dropWhile jsSpace).reverse.dropWhile jsSpace).reverse

/-- Model of `String.prototype.trim`. -/
def jsTrim (s : String) : String :=
  String.mk (jsTrimList s.data)

/-- Model of `String.prototype.toLowerCase` (ASCII-relevant part). -/
def jsToLower (s : String) : String :=
  String.mk (s.data.map Char.toLower)

/-- Model of `split` on a single separator character, as in JS `s.split('\n')`:
`""` splits to `[""]`, and empty segments are kept. -/
def splitChar (sep : Char) : List Char → List (List Char)
  | [] => [[]]
  | c :: rest =>
    if c = sep then [] :: splitChar sep rest
    else
      match splitChar sep rest with
      | [] => [[c]]
      | l :: ls => (c :: l) :: ls

/-- A front-matter value: the parser only ever produces scalar strings or
lists of strings. -/
inductive YamlValue where
  | str (s : String)
  | list (l : List String)
deriving DecidableEq, Repr

/-- Property read `obj[k]` on the result record (association list kept in
insertion order, assignments overwrite in place as on a JS object). -/
def lookupKV {β : Type} : List (String × β) → String → Option β
  | [], _ => none
  | (k', v) :: rest, k => if k' = k then some v else lookupKV rest k

/-- Assignment `obj[k] = v` on a JS object: overwrite in place, else append. -/
def upsert {β : Type} : List (String × β) → String → β → List (String × β)
  | [], k, v => [(k, v)]
  | (k', v') :: rest, k, v =>
    if k' = k then (k', v) :: rest else (k', v') :: upsert rest k v

/-- The key/value line regex `^(\w+):\s*(.*)$`: a nonempty run of word
characters from the start of the line, immediately followed by `:`; the
captured value, after the regex's `\s*` and the source's `.trim()`, is the
trimmed remainder. -/
def kvParse (line : List Char) : Option (String × String) :=
  match line.takeWhile wordChar, line.dropWhile wordChar with
  | [], _ => none
  | key, ':' :: raw => some (String.mk key, String.mk (jsTrimList raw))
  | _, _ => none

/-- The list-item line regex `^\s+-\s+(.+)$`: at least one leading
whitespace character, a hyphen, at least one further whitespace character
and at least one character after it.  The captured group, after `.trim()`,
is the trimmed text following the whitespace run (the empty string when
only whitespace follows the hyphen, matching the regex's backtracking). -/
def listItemParse (line : List Char) : Option String :=
  match line.takeWhile jsSpace, line.dropWhile jsSpace with
  | [], _ => none
  | _, '-' :: c :: r3 =>
    if jsSpace c && !r3.isEmpty then
      some (String.mk (jsTrimList ((c :: r3).dropWhile jsSpace)))
    else none
  | _, _ => none

/-- Strip one matching pair of surrounding double or single quotes, as the
source does on nonempty scalar values (`value.slice(1, -1)`). -/
def stripQuotes (v : List Char) : List Char :=
  if (v.head? == some '"' && v.getLast? == some '"') ||
     (v.head? == some '\'' && v.getLast? == some '\'') then
    (v.drop 1).dropLast
  else v

/-- The mutable locals of `parseYamlFrontmatter`'s loop. -/
structure PState where
  result : List (String × YamlValue)
  currentKey : Option String
  currentList : List String
deriving DecidableEq, Repr

/-- Source step `if (currentKey && currentList.length > 0) \x7b result[currentKey] = currentList; currentList = []; \x7d`. -/
def commitList (st : PState) : PState :=
  match st.currentKey with
  | some k =>
    if st.currentList.isEmpty then st
    else { st with result := upsert st.result k (.list st.currentList), currentList := [] }
  | none => st

/-- One iteration of the line loop of `parseYamlFrontmatter`.  A blank
line is skipped; a list-item line is appended to the dangling key's list
(ignored when no key is dangling, since such a line starts with
whitespace and therefore also fails the key/value regex); a key/value
line first commits a pending list, then either finalises the key as a
(quote-stripped) scalar or marks it as dangling. -/
def procLine (st : PState) (line : List Char) : PState :=
  if jsTrimList line = [] then st
  else
    match listItemParse line with
    | some item =>
      match st.currentKey with
      | some _ => { st with currentList := st.currentList ++ [item] }
      | none => st
    | none =>
      match kvParse line with
      | some (k, v) =>
        let st' := commitList st
        if v = "" then { st' with currentKey := some k }
        else { st' with result := upsert st'.result k (.str (String.mk (stripQuotes v.data))),
                        currentKey := none }
      | none => st

/-- The whole line loop plus the final dangling-list commit. -/
def parseLines (lines : List (List Char)) : List (String × YamlValue) :=
  (commitList (lines.foldl procLine ⟨[], none, []⟩)).result

/-- Positions of `'\n'` inside the maximal leading whitespace run
(candidate end points for `\s*\n` after a delimiter), in increasing
order. -/
def wsNlPos : List Char → List Nat
  | [] => []
  | c :: rest =>
    if jsSpace c then
      (if c = '\n' then [0] else []) ++ (wsNlPos rest).map (· + 1)
    else []

/-- Attempt to match the closing `\n---\s*\n` of the front-matter regex at
the head of `cs`; returns the length of the matched closer (the greedy
`\s*` ends at the last newline of the whitespace run). -/
def closerLen (cs : List Char) : Option Nat :=
  match cs with
  | '\n' :: '-' :: '-' :: '-' :: tail =>
    match (wsNlPos tail).getLast? with
    | some j => some (4 + j + 1)
    | none => none
  | _ => none

/-- Lazy search (`.*?` of the front-matter regex) for the first position
at which the closer matches; returns that position together with the
position one past the end of the closer. -/
def searchClose : List Char → Option (Nat × Nat)
  | [] => none
  | c :: rest =>
    match closerLen (c :: rest) with
    | some len => some (0, len)
    | none => (searchClose rest).map (fun p => (p.1 + 1, p.2 + 1))

/-- Greedy choice of the opening `---\s*\n`'s end (candidates tried from
the last newline of the whitespace run downwards, backtracking when no
closer can be found after the candidate), as the regex engine does. -/
def tryOpen (rest : List Char) : List Nat → Option (List Char × Nat)
  | [] => none
  | j :: js =>
    let s := j + 1
    match searchClose (rest.drop s) with
    | some (e, me) => some ((rest.drop s).take e, 3 + s + me)
    | none => tryOpen rest js

/-- The front-matter regex `^---\s*\n(.*?)\n---\s*\n` (dotall): on
success, returns the captured interior together with the length of the
whole match. -/
def fmSplit (cs : List Char) : Option (List Char × Nat) :=
  match cs with
  | '-' :: '-' :: '-' :: rest => tryOpen rest (wsNlPos rest).reverse
  | _ => none

/-- Model of `parseYamlFrontmatter`: empty mapping when the delimited block is
absent, otherwise the line-oriented parse of the interior split on
newlines. -/
def parseYamlFrontmatter (content : String) : List (String × YamlValue) :=
  match fmSplit content.data with
  | none => []
  | some (inner, _) => parseLines (splitChar '\n' inner)

/-- Model of `extractBodyContent`: remove the matched front-matter block (the
match is anchored at the start) and trim; the whole trimmed document when
the block is absent. -/
def extractBodyContent (content : String) : String :=
  match fmSplit content.data with
  | none => jsTrim content
  | some (_, me) => String.mk (jsTrimList (content.data.drop me))

/-- Value of `metadata['argument-hint'] || ''` as read by `scanCommands` when it
builds a `CommandNode` (the `||` default makes the absent key the empty
string). -/
def argumentHintOf (content : String) : YamlValue :=
  (lookupKV (parseYamlFrontmatter content) "argument-hint").getD (.str "")

/-- Model of `parseListField`: arrays are returned unchanged; strings are split on
commas, trimmed and filtered of empties; everything else yields `[]`. -/
def parseListField (v : Option YamlValue) : List String :=
  match v with
  | some (.list l) => l
  | some (.str s) =>
    ((splitChar ',' s.data).map (fun cs => String.mk (jsTrimList cs))).filter (fun x => x ≠ "")
  | none => []

/-- The system-prompt truncation of `scanAgents`:
`body.length > 500 ? body.slice(0, 500) + '...' : body`. -/
def systemPromptOf (body : String) : String :=
  if body.length > 500 then String.mk (body.data.take 500) ++ "..." else body

/-- Failure of the closing delimiter match at every suffix of `cs`: no
position carries `\n---` followed by a whitespace run containing a
newline.  In particular a document that ends immediately after its
closing `---` line (no newline after it) has no closer anywhere when the
interior contains no stray `\n---` sequence. -/
def noCloserB : List Char → Bool
  | [] => true
  | c :: rest => (closerLen (c :: rest)).isNone && noCloserB rest

/-- AgentNode record built by `scanAgents` (the `scope` tag and shape of
the auxiliary string fields play no role in the operations verified
here; all fields of the TS interface that those operations read are
present). -/
structure AgentNode where
  id : String
  name : String
  description : String
  tools : List String
  model : String
  subagents : List String
  skills : List String
  filePath : String
  systemPrompt : String
deriving DecidableEq, Repr

/-- SkillNode record built by `scanSkills`. -/
structure SkillNode where
  id : String
  name : String
  description : String
  triggers : List String
  filePath : String
  hasScripts : Bool
  hasWebapp : Bool
deriving DecidableEq, Repr

/-- CommandNode record built by `scanCommands`.  The argument hint is
kept as the raw metadata value (`metadata['argument-hint'] || ''` is an
untyped read in the source). -/
structure CommandNode where
  id : String
  name : String
  description : String
  argumentHint : YamlValue
  filePath : String
deriving DecidableEq, Repr

/-- Edge type of the relationship graph. -/
inductive EdgeType where
  | uses
  | calls
deriving DecidableEq, Repr

/-- A directed relationship edge. -/
structure GraphEdge where
  source : String
  target : String
  type : EdgeType
deriving DecidableEq, Repr

/-- Dedup key of `addEdge`: the template string `source + '->' + target`. -/
def edgeKey (source target : String) : String :=
  source ++ "->" ++ target

/-- The closure `addEdge` of `findRelationships`: state is the edge list
plus the `addedEdges` key set (modelled as the list of inserted keys);
an offer whose key is already present is a no-op. -/
def addEdge (st : List GraphEdge × List String) (e : GraphEdge) :
    List GraphEdge × List String :=
  if edgeKey e.source e.target ∈ st.2 then st
  else (st.1 ++ [e], st.2 ++ [edgeKey e.source e.target])

/-- Sequential processing of a list of edge offers through `addEdge`,
starting from the empty collector, as the two passes of
`findRelationships` do. -/
def collectEdges (ins : List GraphEdge) : List GraphEdge :=
  (ins.foldl addEdge ([], [])).1

/-- Model of JS `s.replace(pat, '')` for a plain string pattern: remove
the first occurrence of `pat`, if any. -/
def removeFirst (pat : List Char) : List Char → List Char
  | [] => []
  | c :: rest =>
    if pat.isPrefixOf (c :: rest) then (c :: rest).drop pat.length
    else c :: removeFirst pat rest

/-- Stem of a node id: `id.replace('agent:', '')` and analogues. -/
def idStem (pat id : String) : String :=
  String.mk (removeFirst pat.data id.data)

/-- The `agentMap` of `findRelationships`: for each agent, in list
order, set the lower-cased display name and then the lower-cased
id-stem to the agent's id (later entries overwrite earlier ones, as on
a JS Map). -/
def agentMapOf (agents : List AgentNode) : List (String × String) :=
  agents.foldl
    (fun m a => upsert (upsert m (jsToLower a.name) a.id) (jsToLower (idStem "agent:" a.id)) a.id)
    []

/-- The `skillMap` of `findRelationships` (the source also builds an
analogous `commandMap`, which no pass reads). -/
def skillMapOf (skills : List SkillNode) : List (String × String) :=
  skills.foldl
    (fun m s => upsert (upsert m (jsToLower s.name) s.id) (jsToLower (idStem "skill:" s.id)) s.id)
    []

/-- Model of JS `hay.includes(needle)`: substring containment. -/
def containsSub (hay needle : List Char) : Bool :=
  match hay with
  | [] => needle.isEmpty
  | c :: rest => needle.isPrefixOf (c :: rest) || containsSub rest needle

/-- Pass 1 of `findRelationships` (metadata-declared edges), as the
sequence of `addEdge` offers it makes: for each agent, each resolvable
subagent name (lower-cased then trimmed, looked up in the agent map)
offers a `calls` edge, then each resolvable skill name offers a `uses`
edge; unresolvable names offer nothing. -/
def metaInsertions (agents : List AgentNode) (am sm : List (String × String)) :
    List GraphEdge :=
  agents.flatMap fun a =>
    (a.subagents.filterMap fun n =>
      (lookupKV am (jsTrim (jsToLower n))).map fun tid =>
        { source := a.id, target := tid, type := EdgeType.calls })
    ++ (a.skills.filterMap fun n =>
      (lookupKV sm (jsTrim (jsToLower n))).map fun tid =>
        { source := a.id, target := tid, type := EdgeType.uses })

/-- Pass 2 of `findRelationships` (content-heuristic edges), as the
sequence of `addEdge` offers it makes.  `contentOf` is the filesystem
oracle: it maps an agent's file path to the file's text, or to `none`
when the read fails (in which case the agent is skipped for this pass
only).  For each agent whose file is readable, each skill whose
lower-cased name or id-stem occurs in the lower-cased text offers a
`uses` edge, then likewise each command. -/
def contentInsertions (agents : List AgentNode) (skills : List SkillNode)
    (commands : List CommandNode) (contentOf : String → Option String) :
    List GraphEdge :=
  agents.flatMap fun a =>
    match contentOf a.filePath with
    | none => []
    | some content =>
      (skills.filterMap fun s =>
        if containsSub (jsToLower content).data (jsToLower s.name).data ||
           containsSub (jsToLower content).data (idStem "skill:" s.id).data then
          some { source := a.id, target := s.id, type := EdgeType.uses }
        else none)
      ++ (commands.filterMap fun c =>
        if containsSub (jsToLower content).data (jsToLower c.name).data ||
           containsSub (jsToLower content).data (idStem "command:" c.id).data then
          some { source := a.id, target := c.id, type := EdgeType.uses }
        else none)

/-- Model of `findRelationships`: both passes write, in order, into the
single deduplicating collector. -/
def findRelationships (agents : List AgentNode) (skills : List SkillNode)
    (commands : List CommandNode) (contentOf : String → Option String) :
    List GraphEdge :=
  collectEdges
    (metaInsertions agents (agentMapOf agents) (skillMapOf skills)
      ++ contentInsertions agents skills commands contentOf)

/-- Model of `mergeNodes` (generic over the node type, as the source's
`<T extends GraphNode>`): local nodes followed by the global nodes whose
id is not among the local ids. -/
def mergeNodes {A : Type} (nodeId : A → String) (localNodes globalNodes : List A) :
    List A :=
  localNodes ++ globalNodes.filter (fun n => !(localNodes.map nodeId).contains (nodeId n))

/-- The three configuration errors `scanProject` can throw before
scanning, each carrying the path(s) its message interpolates. -/
inductive ScanError where
  | noLocalFolder (project : String)
  | noGlobalFolder (globalPath : String)
  | noFolder (project globalPath : String)
deriving DecidableEq, Repr

/-- The root-existence gate of `scanProject` (its three `throw`
statements, in source order).  `hasLocal`/`hasGlobal` are the outcomes
of the two `fs.access` probes; when the result is `ok` the scan
proceeds (an absent root only leads to empty node lists). -/
def checkRoots (includeLocal includeGlobal hasLocal hasGlobal : Bool)
    (project globalPath : String) : Except ScanError Unit :=
  if includeLocal && !hasLocal && !includeGlobal then
    .error (.noLocalFolder project)
  else if includeGlobal && !hasGlobal && !includeLocal then
    .error (.noGlobalFolder globalPath)
  else if !hasLocal && !hasGlobal then
    .error (.noFolder project globalPath)
  else .ok ()

/-- Line classification: the line parses as a key/value line. -/
def isKvB (l : List Char) : Bool :=
  (kvParse l).isSome

/-- Line classification: the line parses as a list-item line. -/
def isLiB (l : List Char) : Bool :=
  (listItemParse l).isSome

/-- No list-item line occurs before the next key/value line (so a key
left dangling at this point accumulates no items before it is
superseded). -/
def noLIBeforeKv : List (List Char) → Bool
  | [] => true
  | l :: ls => if isKvB l then true else (!isLiB l) && noLIBeforeKv ls

/-- Every key/value line for key `k` in the block declares it with an
empty value (the key is never finalised as a scalar). -/
def onlyEmptyDecls (k : String) (ls : List (List Char)) : Bool :=
  ls.all fun l =>
    match kvParse l with
    | some (k', v) => k' != k || v == ""
    | none => true

/-- After every dangling declaration of key `k`, no list-item line
occurs before the next key/value line: the claim's "followed by no
list-item lines". -/
def danglingSafe (k : String) : List (List Char) → Bool
  | [] => true
  | l :: ls =>
    (match kvParse l with
     | some (k', v) => if k' == k && v == "" then noLIBeforeKv ls else true
     | none => true) && danglingSafe k ls

/-- The lines of the front-matter interior of a document (empty when the
delimited block is absent). -/
def fmLines (content : String) : List (List Char) :=
  match fmSplit content.data with
  | none => []
  | some (inner, _) => splitChar '\n' inner

/-- Case-insensitive literal match (JS `i` flag) of `pat` against the
head of the text; returns the remaining suffix. -/
def ciPrefix : List Char → List Char → Option (List Char)
  | [], rest => some rest
  | _ :: _, [] => none
  | p :: ps, c :: rest => if c.toLower = p.toLower then ciPrefix ps rest else none

/-- The optional `s?` of `Triggers?` (case-insensitive, greedy). -/
def dropOptS : List Char → List Char
  | 's' :: r => r
  | 'S' :: r => r
  | r => r

/-- Heading part `##\s*(?:Triggers?|사용\s*시점)` of the trigger regex of
`scanSkills`, matched at the head of the text; returns the suffix after
the heading. -/
def matchHeading (cs : List Char) : Option (List Char) :=
  match cs with
  | '#' :: '#' :: rest =>
    match ciPrefix "trigger".data (rest.dropWhile jsSpace) with
    | some r => some (dropOptS r)
    | none =>
      match ciPrefix "사용".data (rest.dropWhile jsSpace) with
      | some r =>
        match ciPrefix "시점".data (r.dropWhile jsSpace) with
        | some r2 => some r2
        | none => none
      | none => none
  | _ => none

/-- The `.*?\n` after the heading: lazily skip to just past the first
newline. -/
def afterFirstNl : List Char → Option (List Char)
  | [] => none
  | '\n' :: rest => some rest
  | _ :: rest => afterFirstNl rest

/-- The lookahead `(?=\n##|\Z)` of the trigger regex.  JavaScript has no
`\Z` anchor: in a JS regex `\Z` is an identity escape matching the
LITERAL letter Z (here case-insensitive, so `z` too).  The capture
therefore ends at the next `\n##` or at the next letter z/Z — and if
neither occurs the whole regex fails to match. -/
def lookStop (cs : List Char) : Bool :=
  match cs with
  | '\n' :: '#' :: '#' :: _ => true
  | c :: _ => c.toLower == 'z'
  | [] => false

/-- The lazy capture group `(.*?)` bounded by `lookStop`: the shortest
prefix whose end position satisfies the lookahead, or `none` when no
position up to and including the end of the text does (the end of the
text never does). -/
def group1 : List Char → Option (List Char)
  | [] => none
  | c :: rest =>
    if lookStop (c :: rest) then some []
    else (group1 rest).map (c :: ·)

/-- Leftmost-match search of the whole trigger regex
`/##\s*(?:Triggers?|사용\s*시점).*?\n(.*?)(?=\n##|\Z)/is` over the body:
at each start position try the heading, then skip past the first
newline, then take the lazily bounded capture; if any stage fails,
advance the start position. -/
def triggerSearch : List Char → Option (List Char)
  | [] => none
  | c :: rest =>
    match matchHeading (c :: rest) with
    | some afterH =>
      match afterFirstNl afterH with
      | some afterN =>
        match group1 afterN with
        | some g => some g
        | none => triggerSearch rest
      | none => triggerSearch rest
    | none => triggerSearch rest

/-- Post-processing of the captured section in `scanSkills`: trim it,
split into lines, keep lines whose trimmed form starts with a hyphen,
strip a leading `-\s*` from each (note: applied to the UNtrimmed line),
trim, and cap at 5 items. -/
def toTriggers (g : List Char) : List String :=
  (((splitChar '\n' (jsTrimList g)).filter
      (fun l => match jsTrimList l with
        | '-' :: _ => true
        | _ => false)).map
    (fun l => String.mk (jsTrimList
      (match l with
       | '-' :: r => r.dropWhile jsSpace
       | _ => l)))).take 5

/-- The trigger extraction of `scanSkills` on a skill body: empty when
the regex does not match, otherwise the post-processed capture. -/
def extractTriggers (body : String) : List String :=
  match triggerSearch body.data with
  | none => []
  | some g => toTriggers g

/-! ## Theorems -/

theorem takeWhile_all_sat {p : Char → Bool} {l : List Char} :
    (l.takeWhile p).all p = true := by
  induction l with
  | nil => rfl
  | cons c rest ih =>
    rw [List.takeWhile_cons]
    by_cases h : p c
    · simp [h, ih]
    · simp [h]

theorem lookupKV_mem {β : Type} {m : List (String × β)} {k : String} {v : β}
    (h : lookupKV m k = some v) : (k, v) ∈ m := by
  induction m with
  | nil => exact Option.noConfusion h
  | cons p rest ih =>
    obtain ⟨k', v'⟩ := p
    unfold lookupKV at h
    by_cases hk : k' = k
    · rw [if_pos hk] at h
      obtain rfl := Option.some.inj h
      subst hk
      exact List.mem_cons_self _ _
    · rw [if_neg hk] at h
      exact List.mem_cons_of_mem _ (ih h)

theorem upsert_mem {β : Type} {m : List (String × β)} {k : String} {v : β} :
    ∀ p ∈ upsert m k v, p.1 = k ∨ p ∈ m := by
  induction m with
  | nil =>
    intro p hp
    unfold upsert at hp
    rcases List.mem_singleton.mp hp with rfl
    exact Or.inl rfl
  | cons q rest ih =>
    obtain ⟨k', v'⟩ := q
    intro p hp
    unfold upsert at hp
    by_cases hk : k' = k
    · rw [if_pos hk] at hp
      rcases List.mem_cons.mp hp with rfl | hmem
      · exact Or.inl hk
      · exact Or.inr (List.mem_cons_of_mem _ hmem)
    · rw [if_neg hk] at hp
      rcases List.mem_cons.mp hp with rfl | hmem
      · exact Or.inr (List.mem_cons_self _ _)
      · rcases ih p hmem with h1 | h2
        · exact Or.inl h1
        · exact Or.inr (List.mem_cons_of_mem _ h2)

theorem kvParse_key_wordy {line : List Char} {k v : String}
    (h : kvParse line = some (k, v)) : k.data.all wordChar = true := by
  unfold kvParse at h
  split at h
  · exact Option.noConfusion h
  · obtain ⟨rfl, rfl⟩ := Prod.mk.injEq .. ▸ Option.some.inj h
    exact takeWhile_all_sat
  · exact Option.noConfusion h

theorem commitList_wordy {st : PState}
    (h1 : ∀ p ∈ st.result, p.1.data.all wordChar = true)
    (h2 : ∀ k, st.currentKey = some k → k.data.all wordChar = true) :
    (∀ p ∈ (commitList st).result, p.1.data.all wordChar = true) ∧
    (commitList st).currentKey = st.currentKey := by
  unfold commitList
  split
  · next k heq =>
    split
    · exact ⟨h1, rfl⟩
    · refine ⟨?_, rfl⟩
      intro p hp
      rcases upsert_mem p hp with he | hm
      · rw [he]; exact h2 k heq
      · exact h1 p hm
  · exact ⟨h1, rfl⟩

theorem procLine_wordy (st : PState) (line : List Char)
    (h1 : ∀ p ∈ st.result, p.1.data.all wordChar = true)
    (h2 : ∀ k, st.currentKey = some k → k.data.all wordChar = true) :
    (∀ p ∈ (procLine st line).result, p.1.data.all wordChar = true) ∧
    (∀ k, (procLine st line).currentKey = some k → k.data.all wordChar = true) := by
  unfold procLine
  split
  · exact ⟨h1, h2⟩
  · split
    · split
      · exact ⟨h1, h2⟩
      · exact ⟨h1, h2⟩
    · split
      · next k v heq =>
        have hck := commitList_wordy h1 h2
        split
        · exact ⟨hck.1, by intro k' hk'; obtain rfl := Option.some.inj hk'; exact kvParse_key_wordy heq⟩
        · refine ⟨?_, by intro k' hk'; exact Option.noConfusion hk'⟩
          intro p hp
          rcases upsert_mem p hp with he | hm
          · rw [he]; exact kvParse_key_wordy heq
          · exact hck.1 p hm
      · exact ⟨h1, h2⟩

theorem parseLines_keys_wordy :
    ∀ (lines : List (List Char)) (st : PState),
      (∀ p ∈ st.result, p.1.data.all wordChar = true) →
      (∀ k, st.currentKey = some k → k.data.all wordChar = true) →
      ∀ p ∈ (commitList (lines.foldl procLine st)).result, p.1.data.all wordChar = true := by
  intro lines
  induction lines with
  | nil => intro st h1 h2; exact (commitList_wordy h1 h2).1
  | cons l ls ih =>
    intro st h1 h2
    rw [List.foldl_cons]
    have h := procLine_wordy st l h1 h2
    exact ih _ h.1 h.2

theorem parseYamlFrontmatter_keys_wordy (content : String) :
    ∀ p ∈ parseYamlFrontmatter content, p.1.data.all wordChar = true := by
  unfold parseYamlFrontmatter
  split
  · intro p hp; exact absurd hp (List.not_mem_nil p)
  · next inner _ _ =>
    unfold parseLines
    exact parseLines_keys_wordy (splitChar '\n' inner) ⟨[], none, []⟩
      (by intro p hp; exact absurd hp (List.not_mem_nil p))
      (by intro k hk; exact Option.noConfusion hk)

/-- Claim C1.  The front-matter key/value regex `^(\w+):\s*(.*)$` only
admits keys made of word characters, so a scalar line
`argument-hint: <value>` never contributes an entry: for EVERY document,
reading the parsed mapping back by the exact string key "argument-hint"
yields nothing, and the value `scanCommands` stores as the CommandNode's
argument-hint string (`metadata['argument-hint'] || ''`) is always the
empty string — contradicting the claim, which expects the scalar value
to be captured.  This is the code-bug evaluation theorem. -/
theorem claim_C1 (content : String) :
    lookupKV (parseYamlFrontmatter content) "argument-hint" = none ∧
    argumentHintOf content = .str "" := by
  have habs : lookupKV (parseYamlFrontmatter content) "argument-hint" = none := by
    cases hl : lookupKV (parseYamlFrontmatter content) "argument-hint" with
    | none => rfl
    | some v =>
      exfalso
      have hw := parseYamlFrontmatter_keys_wordy content _ (lookupKV_mem hl)
      have : ("argument-hint" : String).data.all wordChar = false := by decide
      rw [this] at hw
      exact Bool.noConfusion hw
  refine ⟨habs, ?_⟩
  unfold argumentHintOf
  rw [habs]
  rfl

theorem dropWhile_cons_false {p : Char → Bool} {l : List Char} {c : Char} {rest : List Char}
    (h : l.dropWhile p = c :: rest) : p c = false := by
  induction l with
  | nil => exact List.noConfusion h
  | cons a t ih =>
    rw [List.dropWhile_cons] at h
    by_cases ha : p a
    · simp only [ha, if_true] at h
      exact ih h
    · simp only [ha, if_false] at h
      obtain rfl := (List.cons.inj h).1
      simpa using ha

theorem dropWhile_idem {p : Char → Bool} (l : List Char) :
    (l.dropWhile p).dropWhile p = l.dropWhile p := by
  cases h : l.dropWhile p with
  | nil => rfl
  | cons c rest =>
    rw [List.dropWhile_cons, dropWhile_cons_false h]
    simp

theorem dropWhile_prefix_self {p : Char → Bool} {l m : List Char}
    (hl : l.dropWhile p = l) (hpre : m <+: l) : m.dropWhile p = m := by
  cases m with
  | nil => rfl
  | cons c rest =>
    cases l with
    | nil =>
      have := List.prefix_nil.mp hpre
      exact List.noConfusion this
    | cons a t =>
      obtain ⟨hc, _⟩ := List.cons_prefix_cons.mp hpre
      have hpa : p a = false := by
        by_cases hp : p a
        · exfalso
          rw [List.dropWhile_cons, if_pos hp] at hl
          have h1 : (t.dropWhile p).length ≤ t.length :=
            (List.dropWhile_suffix p).sublist.length_le
          have h2 := congrArg List.length hl
          simp at h2
          omega
        · simpa using hp
      subst hc
      rw [List.dropWhile_cons, hpa]
      simp

theorem jsTrimList_nls (cs : List Char) :
    (jsTrimList cs).dropWhile jsSpace = jsTrimList cs := by
  unfold jsTrimList
  have hsuf : (cs.dropWhile jsSpace).reverse.dropWhile jsSpace <:+ (cs.dropWhile jsSpace).reverse :=
    List.dropWhile_suffix jsSpace
  have hpre : ((cs.dropWhile jsSpace).reverse.dropWhile jsSpace).reverse <+: cs.dropWhile jsSpace := by
    have h := List.reverse_prefix.mpr hsuf
    simpa using h
  exact dropWhile_prefix_self (dropWhile_idem cs) hpre

theorem jsTrimList_idem (cs : List Char) : jsTrimList (jsTrimList cs) = jsTrimList cs := by
  conv_lhs => rw [jsTrimList, jsTrimList_nls cs]
  rw [jsTrimList]
  simp [dropWhile_idem]

/-- Claim C8, counterexample.  `parseListField` returns array values
unchanged: an array containing the empty string and an untrimmed item
comes back verbatim, so the output is neither trimmed nor free of empty
strings, refuting the claim as universally stated. -/
theorem cex_C8 :
    parseListField (some (.list ["", " a "])) = ["", " a "] ∧
    "" ∈ parseListField (some (.list ["", " a "])) ∧
    jsTrim " a " ≠ " a " := by
  refine ⟨rfl, by decide, by decide⟩

/-- Claim C8, amended.  String values are split on commas with the items
trimmed and empties dropped (so every item of a string input is a
non-empty trim-fixed point); array values are returned UNCHANGED (not
re-trimmed or filtered); an absent value yields `[]`; and the claim's
example holds: the already-normalized two-item list and the string
"a, b" both normalize to `["a", "b"]`. -/
theorem claim_C8 (s : String) (l : List String) (x : String) :
    (x ∈ parseListField (some (.str s)) → x ≠ "" ∧ jsTrim x = x) ∧
    parseListField (some (.list l)) = l ∧
    parseListField none = [] ∧
    parseListField (some (.list ["a", "b"])) = parseListField (some (.str "a, b")) := by
  refine ⟨?_, rfl, rfl, by decide⟩
  intro hx
  unfold parseListField at hx
  have hne : ¬(x = "") := by
    have := List.mem_filter.mp hx
    simpa using this.2
  refine ⟨hne, ?_⟩
  have hmap := (List.mem_filter.mp hx).1
  obtain ⟨cs, _, rfl⟩ := List.mem_map.mp hmap
  show jsTrim (String.mk (jsTrimList cs)) = String.mk (jsTrimList cs)
  unfold jsTrim
  show String.mk (jsTrimList (jsTrimList cs)) = String.mk (jsTrimList cs)
  rw [jsTrimList_idem]

/-- Claim C8, witness for the amended theorem at concrete inputs. -/
theorem claim_C8_witness :
    ("a" ≠ "" ∧ jsTrim "a" = "a") ∧
    parseListField (some (.list [" q ", ""])) = [" q ", ""] := by
  refine ⟨claim_C8 " a , b " [" q ", ""] "a" |>.1 (by decide), ?_⟩
  exact (claim_C8 " a , b " [" q ", ""] "a").2.1

/-- Claim C9.  The stored system prompt is the body verbatim when it has
at most 500 characters, and otherwise exactly the first 500 characters
of the body followed by the `"..."` truncation suffix (so the stored
text's first 500 characters coincide with the body's). -/
theorem claim_C9 (body : String) :
    (body.length ≤ 500 → systemPromptOf body = body) ∧
    (500 < body.length →
      systemPromptOf body = String.mk (body.data.take 500) ++ "..." ∧
      (body.data.take 500).length = 500 ∧
      (systemPromptOf body).data.take 500 = body.data.take 500) := by
  constructor
  · intro hle
    unfold systemPromptOf
    rw [if_neg (by omega)]
  · intro hgt
    have hlen : body.data.length = body.length := rfl
    have heq : systemPromptOf body = String.mk (body.data.take 500) ++ "..." := by
      unfold systemPromptOf
      rw [if_pos (by omega)]
    have htake : (body.data.take 500).length = 500 := by
      rw [List.length_take]
      omega
    refine ⟨heq, htake, ?_⟩
    rw [heq]
    show (body.data.take 500 ++ "...".data).take 500 = body.data.take 500
    have hleft := List.take_left (body.data.take 500) "...".data
    rw [htake] at hleft
    exact hleft

/-- Claim C9, witness: a short body is stored verbatim and a 501-character
body is truncated to its first 500 characters plus the suffix. -/
theorem claim_C9_witness :
    systemPromptOf "hi" = "hi" ∧
    systemPromptOf (String.mk (List.replicate 501 'a')) =
      String.mk (List.replicate 500 'a') ++ "..." := by
  constructor
  · exact (claim_C9 "hi").1 (by decide)
  · have hlen : 500 < (String.mk (List.replicate 501 'a')).length := by
      show 500 < (List.replicate 501 'a').length
      rw [List.length_replicate]
      omega
    have h := ((claim_C9 (String.mk (List.replicate 501 'a'))).2 hlen).1
    rw [h]
    show String.mk ((List.replicate 501 'a').take 500) ++ "..." = _
    rw [List.take_replicate]
    rfl

theorem noCloserB_head {c : Char} {rest : List Char}
    (h : noCloserB (c :: rest) = true) :
    closerLen (c :: rest) = none ∧ noCloserB rest = true := by
  unfold noCloserB at h
  have h' := Bool.and_eq_true_iff.mp h
  exact ⟨Option.isNone_iff_eq_none.mp h'.1, h'.2⟩

theorem noCloserB_drop {cs : List Char} (h : noCloserB cs = true) (n : Nat) :
    noCloserB (cs.drop n) = true := by
  induction cs generalizing n with
  | nil => simpa using h
  | cons c rest ih =>
    cases n with
    | zero => exact h
    | succ m => exact ih (noCloserB_head h).2 m

theorem searchClose_none {cs : List Char} (h : noCloserB cs = true) :
    searchClose cs = none := by
  induction cs with
  | nil => rfl
  | cons c rest ih =>
    unfold searchClose
    rw [(noCloserB_head h).1]
    rw [ih (noCloserB_head h).2]
    rfl

theorem tryOpen_none {rest : List Char} (h : noCloserB rest = true) :
    ∀ js : List Nat, tryOpen rest js = none := by
  intro js
  induction js with
  | nil => rfl
  | cons j js' ih =>
    unfold tryOpen
    simp only [searchClose_none (noCloserB_drop h (j + 1))]
    exact ih

theorem fmSplit_none {cs : List Char} (h : noCloserB cs = true) :
    fmSplit cs = none := by
  unfold fmSplit
  split
  · rename_i a rest
    have hrest : noCloserB rest = true :=
      (noCloserB_head (noCloserB_head (noCloserB_head h).2).2).2
    exact tryOpen_none hrest _
  · rfl

/-- Claim C10.  When the document ends immediately after the closing
`---` delimiter line (no newline follows it) and no other closing
delimiter occurs, the front-matter regex `^---\s*\n(.*?)\n---\s*\n`
cannot match (its closer requires a newline after the closing `---`),
so the parser returns the empty mapping and the body extractor returns
the whole trimmed document, delimiters included. -/
theorem claim_C10 (content : String) (pre : List Char)
    (_hshape : content.data = pre ++ ['\n', '-', '-', '-'])
    (hnc : noCloserB content.data = true) :
    parseYamlFrontmatter content = [] ∧ extractBodyContent content = jsTrim content := by
  have hs := fmSplit_none hnc
  constructor
  · unfold parseYamlFrontmatter
    rw [hs]
  · unfold extractBodyContent
    rw [hs]

/-- Claim C10, witness: a concrete document that stops right after its
closing delimiter parses to the empty mapping, and its extracted body is
the whole document. -/
theorem claim_C10_witness :
    parseYamlFrontmatter "---\nname: x\n---" = [] ∧
    extractBodyContent "---\nname: x\n---" = jsTrim "---\nname: x\n---" := by
  exact claim_C10 "---\nname: x\n---" "---\nname: x".data (by decide) (by decide)

theorem foldl_addEdge_keys (l : List GraphEdge) :
    ∀ (st : List GraphEdge × List String) (k : String),
      (k ∈ (l.foldl addEdge st).2 ↔ k ∈ st.2 ∨ ∃ e ∈ l, edgeKey e.source e.target = k) := by
  induction l with
  | nil => intro st k; simp
  | cons i rest ih =>
    intro st k
    rw [List.foldl_cons]
    rw [ih]
    unfold addEdge
    by_cases hk : edgeKey i.source i.target ∈ st.2
    · rw [if_pos hk]
      constructor
      · rintro (h | h)
        · exact Or.inl h
        · obtain ⟨e, he, hke⟩ := h
          exact Or.inr ⟨e, List.mem_cons_of_mem _ he, hke⟩
      · rintro (h | h)
        · exact Or.inl h
        · obtain ⟨e, he, hke⟩ := h
          rcases List.mem_cons.mp he with rfl | he'
          · exact Or.inl (hke ▸ hk)
          · exact Or.inr ⟨e, he', hke⟩
    · rw [if_neg hk]
      simp only [List.mem_append, List.mem_singleton]
      constructor
      · rintro ((h | h) | h)
        · exact Or.inl h
        · exact Or.inr ⟨i, List.mem_cons_self _ _, h.symm⟩
        · obtain ⟨e, he, hke⟩ := h
          exact Or.inr ⟨e, List.mem_cons_of_mem _ he, hke⟩
      · rintro (h | h)
        · exact Or.inl (Or.inl h)
        · obtain ⟨e, he, hke⟩ := h
          rcases List.mem_cons.mp he with rfl | he'
          · exact Or.inl (Or.inr hke.symm)
          · exact Or.inr ⟨e, he', hke⟩

/-- Collector invariant: every collected edge's key is recorded, and the
collected edges have pairwise distinct keys. -/
def edgesInv (st : List GraphEdge × List String) : Prop :=
  (∀ e ∈ st.1, edgeKey e.source e.target ∈ st.2) ∧
  List.Pairwise (fun e1 e2 => edgeKey e1.source e1.target ≠ edgeKey e2.source e2.target) st.1

theorem addEdge_inv {st : List GraphEdge × List String} (h : edgesInv st) (e : GraphEdge) :
    edgesInv (addEdge st e) := by
  unfold addEdge
  by_cases hk : edgeKey e.source e.target ∈ st.2
  · rw [if_pos hk]; exact h
  · rw [if_neg hk]
    constructor
    · intro x hx
      rcases List.mem_append.mp hx with hx1 | hx2
      · exact List.mem_append.mpr (Or.inl (h.1 x hx1))
      · obtain rfl := List.mem_singleton.mp hx2
        exact List.mem_append.mpr (Or.inr (List.mem_singleton.mpr rfl))
    · rw [List.pairwise_append]
      refine ⟨h.2, List.pairwise_singleton _ _, ?_⟩
      intro x hx y hy
      obtain rfl := List.mem_singleton.mp hy
      intro hxy
      exact hk (hxy ▸ h.1 x hx)

theorem foldl_addEdge_inv (l : List GraphEdge) :
    ∀ st : List GraphEdge × List String, edgesInv st → edgesInv (l.foldl addEdge st) := by
  induction l with
  | nil => intro st h; exact h
  | cons i rest ih =>
    intro st h
    rw [List.foldl_cons]
    exact ih _ (addEdge_inv h i)

theorem foldl_addEdge_out (l : List GraphEdge) :
    ∀ (st : List GraphEdge × List String), ∀ e ∈ (l.foldl addEdge st).1,
      e ∈ st.1 ∨
      (edgeKey e.source e.target ∉ st.2 ∧
        ∃ pre post, l = pre ++ e :: post ∧
          ∀ e' ∈ pre, edgeKey e'.source e'.target ≠ edgeKey e.source e.target) := by
  induction l with
  | nil => intro st e he; exact Or.inl he
  | cons i rest ih =>
    intro st e he
    rw [List.foldl_cons] at he
    rcases ih (addEdge st i) e he with hmem | ⟨hkey, pre, post, hsplit, hfirst⟩
    · unfold addEdge at hmem
      by_cases hk : edgeKey i.source i.target ∈ st.2
      · rw [if_pos hk] at hmem
        exact Or.inl hmem
      · rw [if_neg hk] at hmem
        rcases List.mem_append.mp hmem with hm1 | hm2
        · exact Or.inl hm1
        · obtain rfl := List.mem_singleton.mp hm2
          refine Or.inr ⟨hk, [], rest, rfl, ?_⟩
          intro x hx
          exact absurd hx (List.not_mem_nil x)
    · have hsub : edgeKey e.source e.target ∉ st.2 ∧
          edgeKey e.source e.target ≠ edgeKey i.source i.target := by
        unfold addEdge at hkey
        by_cases hk : edgeKey i.source i.target ∈ st.2
        · rw [if_pos hk] at hkey
          exact ⟨hkey, fun hcon => hkey (hcon ▸ hk)⟩
        · rw [if_neg hk] at hkey
          constructor
          · intro hcon
            exact hkey (List.mem_append.mpr (Or.inl hcon))
          · intro hcon
            exact hkey (List.mem_append.mpr (Or.inr (List.mem_singleton.mpr hcon)))
      refine Or.inr ⟨hsub.1, i :: pre, post, by rw [hsplit, List.cons_append], ?_⟩
      intro x hx
      rcases List.mem_cons.mp hx with rfl | hx'
      · exact fun hcon => hsub.2 hcon.symm
      · exact hfirst x hx'

/-- Claim C3.  Edge offers go through the deduplicating collector keyed
by the ordered pair of endpoints: (a) the collected edges are pairwise
distinct on (source, target); (b) offering a pair already offered
earlier is a no-op, even when the edge type differs; (c) any collected
edge is the FIRST offer made with its (source, target) pair (so the
first-offered type is the one kept). -/
theorem claim_C3 (ins pre post : List GraphEdge) (e : GraphEdge) :
    List.Pairwise
      (fun e1 e2 => ¬(e1.source = e2.source ∧ e1.target = e2.target)) (collectEdges ins) ∧
    ((∃ e' ∈ pre, e'.source = e.source ∧ e'.target = e.target) →
      collectEdges (pre ++ e :: post) = collectEdges (pre ++ post)) ∧
    (e ∈ collectEdges ins →
      ∃ p q, ins = p ++ e :: q ∧
        ∀ e' ∈ p, ¬(e'.source = e.source ∧ e'.target = e.target)) := by
  refine ⟨?_, ?_, ?_⟩
  · have hinv := foldl_addEdge_inv ins ([], []) ⟨by intro x hx; exact absurd hx (List.not_mem_nil x), List.Pairwise.nil⟩
    refine List.Pairwise.imp ?_ hinv.2
    intro e1 e2 hne hcon
    exact hne (by rw [edgeKey, edgeKey, hcon.1, hcon.2])
  · rintro ⟨e', he', hpair⟩
    unfold collectEdges
    rw [List.foldl_append, List.foldl_append, List.foldl_cons]
    have hkey : edgeKey e.source e.target ∈ (pre.foldl addEdge ([], [])).2 := by
      rw [foldl_addEdge_keys]
      exact Or.inr ⟨e', he', by rw [edgeKey, edgeKey, hpair.1, hpair.2]⟩
    rw [addEdge, if_pos hkey]
  · intro he
    rcases foldl_addEdge_out ins ([], []) e he with hmem | ⟨_, p, q, hsplit, hfirst⟩
    · exact absurd hmem (List.not_mem_nil e)
    · refine ⟨p, q, hsplit, ?_⟩
      intro x hx hcon
      exact hfirst x hx (by rw [edgeKey, edgeKey, hcon.1, hcon.2])

/-- Claim C3, witness: offering the pair (a, b) twice — first as `calls`,
then as `uses` — keeps exactly the first offer, and the kept edge is the
first offer with its pair. -/
theorem claim_C3_witness :
    collectEdges
      [{ source := "a", target := "b", type := EdgeType.calls },
       { source := "a", target := "b", type := EdgeType.uses }] =
      collectEdges [{ source := "a", target := "b", type := EdgeType.calls }] ∧
    (∃ p q,
      ([{ source := "a", target := "b", type := EdgeType.calls },
        { source := "a", target := "b", type := EdgeType.uses }] : List GraphEdge) =
        p ++ { source := "a", target := "b", type := EdgeType.calls } :: q ∧
      ∀ e' ∈ p, ¬(e'.source = "a" ∧ e'.target = "b")) := by
  constructor
  · exact (claim_C3
      [{ source := "a", target := "b", type := EdgeType.calls }]
      [{ source := "a", target := "b", type := EdgeType.calls }]
      []
      { source := "a", target := "b", type := EdgeType.uses }).2.1
      ⟨{ source := "a", target := "b", type := EdgeType.calls }, by decide, by decide⟩
  · exact (claim_C3
      [{ source := "a", target := "b", type := EdgeType.calls },
       { source := "a", target := "b", type := EdgeType.uses }]
      [] []
      { source := "a", target := "b", type := EdgeType.calls }).2.2 (by decide)

theorem contains_iff_mem_str {l : List String} {a : String} :
    l.contains a = true ↔ a ∈ l :=
  List.elem_iff

/-- Claim C4.  The scope merger returns exactly the local entries (in
order) followed by the global entries (in order) whose id does not occur
among the local ids; hence on an id collision only the local entry
survives, every merged node comes from one of the inputs with the stated
filter, and merged ids are unique whenever each input's ids are. -/
theorem claim_C4 {A : Type} (nodeId : A → String) (l g : List A) :
    mergeNodes nodeId l g = l ++ g.filter (fun n => decide (nodeId n ∉ l.map nodeId)) ∧
    (∀ n ∈ mergeNodes nodeId l g, n ∈ l ∨ (n ∈ g ∧ nodeId n ∉ l.map nodeId)) ∧
    ((l.map nodeId).Nodup → (g.map nodeId).Nodup → ((mergeNodes nodeId l g).map nodeId).Nodup) := by
  have hfilter : (fun n => !(l.map nodeId).contains (nodeId n)) =
      (fun n => decide (nodeId n ∉ l.map nodeId)) := by
    funext n
    by_cases hn : nodeId n ∈ l.map nodeId
    · simp [contains_iff_mem_str.mpr hn, hn]
    · have hc : (l.map nodeId).contains (nodeId n) = false :=
        Bool.eq_false_iff.mpr (fun hcon => hn (contains_iff_mem_str.mp hcon))
      simp [hc, hn]
  have hdef : mergeNodes nodeId l g = l ++ g.filter (fun n => decide (nodeId n ∉ l.map nodeId)) := by
    unfold mergeNodes
    rw [hfilter]
  refine ⟨hdef, ?_, ?_⟩
  · intro n hn
    rw [hdef] at hn
    rcases List.mem_append.mp hn with h1 | h2
    · exact Or.inl h1
    · have hmem := List.mem_filter.mp h2
      exact Or.inr ⟨hmem.1, of_decide_eq_true hmem.2⟩
  · intro hl hg
    rw [hdef, List.map_append, List.nodup_append]
    refine ⟨hl, ?_, ?_⟩
    · exact List.Nodup.sublist ((List.filter_sublist _).map nodeId) hg
    · intro x hx1 hx2
      obtain ⟨n, hn, rfl⟩ := List.mem_map.mp hx2
      exact of_decide_eq_true (List.mem_filter.mp hn).2 hx1

/-- Claim C4, witness: with a local skill and two global skills, one of
which collides on id, the merged list keeps the local entry, the
colliding global entry is gone, and the merged ids are unique. -/
theorem claim_C4_witness :
    ({ id := "skill:x", name := "x", description := "", triggers := [], filePath := "p",
       hasScripts := false, hasWebapp := false } ∈
        ([{ id := "skill:x", name := "x", description := "", triggers := [], filePath := "p",
            hasScripts := false, hasWebapp := false }] : List SkillNode) ∨
      ({ id := "skill:x", name := "x", description := "", triggers := [], filePath := "p",
         hasScripts := false, hasWebapp := false } ∈
          ([{ id := "skill:x", name := "xg", description := "", triggers := [], filePath := "q",
              hasScripts := false, hasWebapp := false },
            { id := "skill:y", name := "y", description := "", triggers := [], filePath := "r",
              hasScripts := false, hasWebapp := false }] : List SkillNode) ∧
        (fun n : SkillNode => n.id)
            { id := "skill:x", name := "x", description := "", triggers := [], filePath := "p",
              hasScripts := false, hasWebapp := false } ∉
          ([{ id := "skill:x", name := "x", description := "", triggers := [], filePath := "p",
              hasScripts := false, hasWebapp := false }] : List SkillNode).map
            (fun n : SkillNode => n.id))) ∧
    ((mergeNodes (fun n : SkillNode => n.id)
        [{ id := "skill:x", name := "x", description := "", triggers := [], filePath := "p",
           hasScripts := false, hasWebapp := false }]
        [{ id := "skill:x", name := "xg", description := "", triggers := [], filePath := "q",
           hasScripts := false, hasWebapp := false },
         { id := "skill:y", name := "y", description := "", triggers := [], filePath := "r",
           hasScripts := false, hasWebapp := false }]).map
      (fun n : SkillNode => n.id)).Nodup := by
  constructor
  · exact (claim_C4 (fun n : SkillNode => n.id)
      [{ id := "skill:x", name := "x", description := "", triggers := [], filePath := "p",
         hasScripts := false, hasWebapp := false }]
      [{ id := "skill:x", name := "xg", description := "", triggers := [], filePath := "q",
         hasScripts := false, hasWebapp := false },
       { id := "skill:y", name := "y", description := "", triggers := [], filePath := "r",
         hasScripts := false, hasWebapp := false }]).2.1
      { id := "skill:x", name := "x", description := "", triggers := [], filePath := "p",
        hasScripts := false, hasWebapp := false } (by decide)
  · exact (claim_C4 (fun n : SkillNode => n.id)
      [{ id := "skill:x", name := "x", description := "", triggers := [], filePath := "p",
         hasScripts := false, hasWebapp := false }]
      [{ id := "skill:x", name := "xg", description := "", triggers := [], filePath := "q",
         hasScripts := false, hasWebapp := false },
       { id := "skill:y", name := "y", description := "", triggers := [], filePath := "r",
         hasScripts := false, hasWebapp := false }]).2.2 (by decide) (by decide)

/-- Claim C5.  The orchestrator's root gate fails exactly when neither
root exists, or when the requested scope's root is absent while the
other scope was explicitly excluded; and any error it produces carries
precisely the attempted path(s).  In every other configuration the scan
proceeds. -/
theorem claim_C5 (il ig hl hg : Bool) (project globalPath : String) :
    ((∃ e, checkRoots il ig hl hg project globalPath = .error e) ↔
      ((!hl && !hg) = true ∨ (il && !hl && !ig) = true ∨ (ig && !hg && !il) = true)) ∧
    (∀ e, checkRoots il ig hl hg project globalPath = .error e →
      e = .noLocalFolder project ∨ e = .noGlobalFolder globalPath ∨
      e = .noFolder project globalPath) := by
  cases il <;> cases ig <;> cases hl <;> cases hg <;>
    simp [checkRoots]

/-- Claim C5, witness: with both roots absent and both scopes requested
the gate fails, and the error names both attempted paths; flipping on a
root makes it proceed. -/
theorem claim_C5_witness :
    (∃ e, checkRoots true true false false "/p" "/g" = .error e) ∧
    (checkRoots true true false false "/p" "/g" = .error (.noFolder "/p" "/g") →
      ScanError.noFolder "/p" "/g" = .noLocalFolder "/p" ∨
      ScanError.noFolder "/p" "/g" = .noGlobalFolder "/g" ∨
      ScanError.noFolder "/p" "/g" = .noFolder "/p" "/g") := by
  constructor
  · exact (claim_C5 true true false false "/p" "/g").1.mpr (Or.inl (by decide))
  · exact (claim_C5 true true false false "/p" "/g").2 (.noFolder "/p" "/g")

theorem lookupKV_upsert {β : Type} (m : List (String × β)) (k k2 : String) (v : β) :
    lookupKV (upsert m k v) k2 = if k = k2 then some v else lookupKV m k2 := by
  induction m with
  | nil =>
    by_cases h : k = k2 <;> simp [upsert, lookupKV, h]
  | cons p rest ih =>
    obtain ⟨k', v'⟩ := p
    by_cases hk : k' = k
    · subst hk
      by_cases h2 : k' = k2
      · subst h2
        simp [upsert, lookupKV]
      · simp [upsert, lookupKV, h2]
    · by_cases h2 : k' = k2
      · subst h2
        have hne : k ≠ k' := fun hc => hk hc.symm
        simp [upsert, lookupKV, hk, hne]
      · simp [upsert, lookupKV, hk, h2, ih]

theorem lookupKV_upsert_values {β : Type} {m : List (String × β)} {ids : List β}
    (hm : ∀ k v, lookupKV m k = some v → v ∈ ids) {v0 : β} (hv : v0 ∈ ids) (k0 : String) :
    ∀ k v, lookupKV (upsert m k0 v0) k = some v → v ∈ ids := by
  intro k v h
  rw [lookupKV_upsert] at h
  by_cases hk : k0 = k
  · rw [if_pos hk] at h
    obtain rfl := Option.some.inj h
    exact hv
  · rw [if_neg hk] at h
    exact hm k v h

theorem foldl_upsert2_values {A : Type} (key1 key2 : A → String) (idf : A → String) :
    ∀ (nodes : List A) (m : List (String × String)) (ids : List String),
      (∀ k v, lookupKV m k = some v → v ∈ ids) →
      (∀ n ∈ nodes, idf n ∈ ids) →
      ∀ k v,
        lookupKV
          (nodes.foldl (fun m n => upsert (upsert m (key1 n) (idf n)) (key2 n) (idf n)) m) k =
          some v → v ∈ ids := by
  intro nodes
  induction nodes with
  | nil => intro m ids hm _ k v h; exact hm k v h
  | cons a rest ih =>
    intro m ids hm hids k v h
    rw [List.foldl_cons] at h
    have hid : idf a ∈ ids := hids a (List.mem_cons_self _ _)
    have hm1 := lookupKV_upsert_values hm hid (key1 a)
    have hm2 := lookupKV_upsert_values hm1 hid (key2 a)
    exact ih _ ids hm2 (fun n hn => hids n (List.mem_cons_of_mem _ hn)) k v h

theorem agentMapOf_values {agents : List AgentNode} {k v : String}
    (h : lookupKV (agentMapOf agents) k = some v) : v ∈ agents.map (fun a => a.id) := by
  refine foldl_upsert2_values (fun a : AgentNode => jsToLower a.name)
    (fun a : AgentNode => jsToLower (idStem "agent:" a.id)) (fun a : AgentNode => a.id)
    agents [] (agents.map (fun a => a.id))
    (by intro k' v' h'; exact Option.noConfusion h')
    (by intro n hn; exact List.mem_map_of_mem _ hn) k v ?_
  exact h

theorem skillMapOf_values {skills : List SkillNode} {k v : String}
    (h : lookupKV (skillMapOf skills) k = some v) : v ∈ skills.map (fun s => s.id) := by
  refine foldl_upsert2_values (fun s : SkillNode => jsToLower s.name)
    (fun s : SkillNode => jsToLower (idStem "skill:" s.id)) (fun s : SkillNode => s.id)
    skills [] (skills.map (fun s => s.id))
    (by intro k' v' h'; exact Option.noConfusion h')
    (by intro n hn; exact List.mem_map_of_mem _ hn) k v ?_
  exact h

theorem collectEdges_subset {ins : List GraphEdge} {e : GraphEdge}
    (h : e ∈ collectEdges ins) : e ∈ ins := by
  rcases foldl_addEdge_out ins ([], []) e h with hmem | ⟨_, pre, post, hsplit, _⟩
  · exact absurd hmem (List.not_mem_nil e)
  · rw [hsplit]
    exact List.mem_append.mpr (Or.inr (List.mem_cons_self _ _))

theorem metaInsertions_shape {agents : List AgentNode} {am sm : List (String × String)}
    {e : GraphEdge} (h : e ∈ metaInsertions agents am sm) :
    e.source ∈ agents.map (fun a => a.id) ∧
    ((∃ k, lookupKV am k = some e.target) ∨ ∃ k, lookupKV sm k = some e.target) := by
  unfold metaInsertions at h
  obtain ⟨a, ha, hin⟩ := List.mem_flatMap.mp h
  rcases List.mem_append.mp hin with h1 | h2
  · obtain ⟨n, _, hf⟩ := List.mem_filterMap.mp h1
    cases hl : lookupKV am (jsTrim (jsToLower n)) with
    | none => rw [hl] at hf; exact Option.noConfusion hf
    | some tid =>
      rw [hl] at hf
      obtain rfl := Option.some.inj hf
      exact ⟨List.mem_map_of_mem _ ha, Or.inl ⟨jsTrim (jsToLower n), hl⟩⟩
  · obtain ⟨n, _, hf⟩ := List.mem_filterMap.mp h2
    cases hl : lookupKV sm (jsTrim (jsToLower n)) with
    | none => rw [hl] at hf; exact Option.noConfusion hf
    | some tid =>
      rw [hl] at hf
      obtain rfl := Option.some.inj hf
      exact ⟨List.mem_map_of_mem _ ha, Or.inr ⟨jsTrim (jsToLower n), hl⟩⟩

theorem contentInsertions_shape {agents : List AgentNode} {skills : List SkillNode}
    {commands : List CommandNode} {contentOf : String → Option String} {e : GraphEdge}
    (h : e ∈ contentInsertions agents skills commands contentOf) :
    e.source ∈ agents.map (fun a => a.id) ∧
    (e.target ∈ skills.map (fun s => s.id) ∨ e.target ∈ commands.map (fun c => c.id)) := by
  unfold contentInsertions at h
  obtain ⟨a, ha, hin⟩ := List.mem_flatMap.mp h
  cases hc : contentOf a.filePath with
  | none => rw [hc] at hin; exact absurd hin (List.not_mem_nil e)
  | some content =>
    rw [hc] at hin
    rcases List.mem_append.mp hin with h1 | h2
    · obtain ⟨s, hs, hf⟩ := List.mem_filterMap.mp h1
      by_cases hcond : (containsSub (jsToLower content).data (jsToLower s.name).data ||
          containsSub (jsToLower content).data (idStem "skill:" s.id).data) = true
      · rw [if_pos hcond] at hf
        obtain rfl := Option.some.inj hf
        exact ⟨List.mem_map_of_mem _ ha, Or.inl (List.mem_map_of_mem _ hs)⟩
      · rw [if_neg hcond] at hf
        exact Option.noConfusion hf
    · obtain ⟨c, hcm, hf⟩ := List.mem_filterMap.mp h2
      by_cases hcond : (containsSub (jsToLower content).data (jsToLower c.name).data ||
          containsSub (jsToLower content).data (idStem "command:" c.id).data) = true
      · rw [if_pos hcond] at hf
        obtain rfl := Option.some.inj hf
        exact ⟨List.mem_map_of_mem _ ha, Or.inr (List.mem_map_of_mem _ hcm)⟩
      · rw [if_neg hcond] at hf
        exact Option.noConfusion hf

theorem foldl_congr_mid {A B : Type} (f : B → A → B) (p q : List A) (a b : A)
    (h : ∀ m, f m b = f m a) : ∀ init, (p ++ b :: q).foldl f init = (p ++ a :: q).foldl f init := by
  induction p with
  | nil => intro init; simp [List.foldl_cons, h]
  | cons x xs ih => intro init; simp only [List.cons_append, List.foldl_cons]; exact ih _

theorem flatMap_congr_mid {A B : Type} (g : A → List B) (p q : List A) (a b : A)
    (h : g b = g a) : (p ++ b :: q).flatMap g = (p ++ a :: q).flatMap g := by
  rw [List.flatMap_append, List.flatMap_append, List.flatMap_cons, List.flatMap_cons, h]

/-- Claim C2.  (i) Every edge `findRelationships` returns has a source
that is the id of one of the agents and a target that is the id of one
of the agents, skills or commands it was given (`scanProject` calls it
on the merged node lists, so edges only reference ids in the final node
set).  (ii)/(iii) A subagent or skill name that resolves to nothing in
the corresponding lookup map contributes no edge and no error: deleting
it from the agent's list leaves the result unchanged. -/
theorem claim_C2 (agents : List AgentNode) (skills : List SkillNode)
    (commands : List CommandNode) (contentOf : String → Option String)
    (p q : List AgentNode) (a : AgentNode) (n : String) (l1 l2 : List String) :
    (∀ e ∈ findRelationships agents skills commands contentOf,
      e.source ∈ agents.map (fun x => x.id) ∧
      e.target ∈ (agents.map (fun x => x.id) ++ skills.map (fun s => s.id) ++
        commands.map (fun c => c.id))) ∧
    (a.subagents = l1 ++ n :: l2 →
      lookupKV (agentMapOf (p ++ a :: q)) (jsTrim (jsToLower n)) = none →
      findRelationships (p ++ { a with subagents := l1 ++ l2 } :: q) skills commands contentOf =
        findRelationships (p ++ a :: q) skills commands contentOf) ∧
    (a.skills = l1 ++ n :: l2 →
      lookupKV (skillMapOf skills) (jsTrim (jsToLower n)) = none →
      findRelationships (p ++ { a with skills := l1 ++ l2 } :: q) skills commands contentOf =
        findRelationships (p ++ a :: q) skills commands contentOf) := by
  refine ⟨?_, ?_, ?_⟩
  · intro e he
    have hin := collectEdges_subset he
    rcases List.mem_append.mp hin with hmeta | hcont
    · obtain ⟨hsrc, htgt⟩ := metaInsertions_shape hmeta
      refine ⟨hsrc, ?_⟩
      rcases htgt with ⟨k, hk⟩ | ⟨k, hk⟩
      · exact List.mem_append.mpr (Or.inl (List.mem_append.mpr (Or.inl (agentMapOf_values hk))))
      · exact List.mem_append.mpr (Or.inl (List.mem_append.mpr (Or.inr (skillMapOf_values hk))))
    · obtain ⟨hsrc, htgt⟩ := contentInsertions_shape hcont
      refine ⟨hsrc, ?_⟩
      rcases htgt with h1 | h2
      · exact List.mem_append.mpr (Or.inl (List.mem_append.mpr (Or.inr h1)))
      · exact List.mem_append.mpr (Or.inr h2)
  · intro hsub hlook
    have hmap : agentMapOf (p ++ { a with subagents := l1 ++ l2 } :: q) =
        agentMapOf (p ++ a :: q) := by
      unfold agentMapOf
      refine foldl_congr_mid _ p q a { a with subagents := l1 ++ l2 } (fun m => ?_) []
      rfl
    unfold findRelationships
    rw [hmap]
    have hmeta : metaInsertions (p ++ { a with subagents := l1 ++ l2 } :: q)
        (agentMapOf (p ++ a :: q)) (skillMapOf skills) =
        metaInsertions (p ++ a :: q) (agentMapOf (p ++ a :: q)) (skillMapOf skills) := by
      unfold metaInsertions
      refine flatMap_congr_mid _ p q a { a with subagents := l1 ++ l2 } ?_
      show (l1 ++ l2).filterMap _ ++ a.skills.filterMap _ = a.subagents.filterMap _ ++ a.skills.filterMap _
      rw [hsub]
      simp only [List.filterMap_append, List.filterMap_cons, hlook, Option.map_none']
    have hcont : contentInsertions (p ++ { a with subagents := l1 ++ l2 } :: q) skills commands contentOf =
        contentInsertions (p ++ a :: q) skills commands contentOf := by
      unfold contentInsertions
      exact flatMap_congr_mid _ p q a { a with subagents := l1 ++ l2 } rfl
    rw [hmeta, hcont]
  · intro hsk hlook
    have hmap : agentMapOf (p ++ { a with skills := l1 ++ l2 } :: q) =
        agentMapOf (p ++ a :: q) := by
      unfold agentMapOf
      refine foldl_congr_mid _ p q a { a with skills := l1 ++ l2 } (fun m => ?_) []
      rfl
    unfold findRelationships
    rw [hmap]
    have hmeta : metaInsertions (p ++ { a with skills := l1 ++ l2 } :: q)
        (agentMapOf (p ++ a :: q)) (skillMapOf skills) =
        metaInsertions (p ++ a :: q) (agentMapOf (p ++ a :: q)) (skillMapOf skills) := by
      unfold metaInsertions
      refine flatMap_congr_mid _ p q a { a with skills := l1 ++ l2 } ?_
      show a.subagents.filterMap _ ++ (l1 ++ l2).filterMap _ = a.subagents.filterMap _ ++ a.skills.filterMap _
      rw [hsk]
      simp only [List.filterMap_append, List.filterMap_cons, hlook, Option.map_none']
    have hcont : contentInsertions (p ++ { a with skills := l1 ++ l2 } :: q) skills commands contentOf =
        contentInsertions (p ++ a :: q) skills commands contentOf := by
      unfold contentInsertions
      exact flatMap_congr_mid _ p q a { a with skills := l1 ++ l2 } rfl
    rw [hmeta, hcont]

/-- Claim C2, witness: a self-referencing agent produces an edge whose
endpoints are node ids, and deleting an unresolvable subagent or skill
name leaves the edge list unchanged. -/
theorem claim_C2_witness :
    (({ source := "agent:a", target := "agent:a", type := EdgeType.calls } : GraphEdge).source ∈
        List.map (fun x : AgentNode => x.id)
          [{ id := "agent:a", name := "a", description := "", tools := [], model := "",
             subagents := ["a"], skills := [], filePath := "f", systemPrompt := "" }] ∧
      ({ source := "agent:a", target := "agent:a", type := EdgeType.calls } : GraphEdge).target ∈
        (List.map (fun x : AgentNode => x.id)
          [{ id := "agent:a", name := "a", description := "", tools := [], model := "",
             subagents := ["a"], skills := [], filePath := "f", systemPrompt := "" }] ++
          List.map (fun s : SkillNode => s.id) [] ++ List.map (fun c : CommandNode => c.id) [])) ∧
    findRelationships
        [{ id := "agent:b", name := "b", description := "", tools := [], model := "",
           subagents := [] ++ [], skills := [], filePath := "g", systemPrompt := "" }]
        [] [] (fun _ => none) =
      findRelationships
        [{ id := "agent:b", name := "b", description := "", tools := [], model := "",
           subagents := ["ghost"], skills := [], filePath := "g", systemPrompt := "" }]
        [] [] (fun _ => none) ∧
    findRelationships
        [{ id := "agent:b", name := "b", description := "", tools := [], model := "",
           subagents := [], skills := [] ++ [], filePath := "g", systemPrompt := "" }]
        [] [] (fun _ => none) =
      findRelationships
        [{ id := "agent:b", name := "b", description := "", tools := [], model := "",
           subagents := [], skills := ["nosuch"], filePath := "g", systemPrompt := "" }]
        [] [] (fun _ => none) := by
  refine ⟨?_, ?_, ?_⟩
  · exact (claim_C2
      [{ id := "agent:a", name := "a", description := "", tools := [], model := "",
         subagents := ["a"], skills := [], filePath := "f", systemPrompt := "" }]
      [] [] (fun _ => none) [] []
      { id := "agent:a", name := "a", description := "", tools := [], model := "",
        subagents := ["a"], skills := [], filePath := "f", systemPrompt := "" }
      "x" [] []).1
      { source := "agent:a", target := "agent:a", type := EdgeType.calls } (by decide)
  · exact (claim_C2 [] [] [] (fun _ => none) [] []
      { id := "agent:b", name := "b", description := "", tools := [], model := "",
        subagents := ["ghost"], skills := [], filePath := "g", systemPrompt := "" }
      "ghost" [] []).2.1 rfl (by decide)
  · exact (claim_C2 [] [] [] (fun _ => none) [] []
      { id := "agent:b", name := "b", description := "", tools := [], model := "",
        subagents := [], skills := ["nosuch"], filePath := "g", systemPrompt := "" }
      "nosuch" [] []).2.2 rfl (by decide)

/-- Claim C7, code-bug evaluation.  The trigger regex ends in
`(?=\n##|\Z)`, but JavaScript has no `\Z` end-of-input anchor: `\Z` is
an identity escape for the literal letter Z (case-insensitive under the
`i` flag).  Consequently (a) a trigger section that runs to the end of
the body with no later `##` heading and no letter z/Z makes the regex
fail entirely, yielding NO triggers instead of the section's items; (b)
a later heading restores the claimed behaviour; (c) a z inside the
section silently truncates the capture at that letter.  The claim says
(a) yields ["first", "second"]. -/
theorem claim_C7 :
    extractTriggers "## Triggers\n- first\n- second" = [] ∧
    extractTriggers "## Triggers\n- first\n- second\n## End" = ["first", "second"] ∧
    extractTriggers "## Triggers\n- zebra care\n- beta\n" = [""] := by
  refine ⟨by decide, by decide, by decide⟩

theorem jsSpace_not_wordChar (c : Char) (h : jsSpace c = true) : wordChar c = false := by
  unfold jsSpace at h
  simp only [Bool.or_eq_true, beq_iff_eq] at h
  rcases h with ((((((((rfl | rfl) | rfl) | rfl) | rfl) | rfl) | rfl) | rfl) | rfl) | rfl <;>
    decide

theorem kvParse_of_head_space {c : Char} {rest : List Char} (h : jsSpace c = true) :
    kvParse (c :: rest) = none := by
  unfold kvParse
  rw [List.takeWhile_cons, jsSpace_not_wordChar c h]
  simp

theorem blank_all_space {l : List Char} (h : jsTrimList l = []) :
    ∀ c ∈ l, jsSpace c = true := by
  unfold jsTrimList at h
  rw [List.reverse_eq_nil_iff] at h
  have h2 : ∀ x ∈ (l.dropWhile jsSpace).reverse, jsSpace x = true :=
    List.dropWhile_eq_nil_iff.mp h
  have h3 : ∀ x ∈ l.dropWhile jsSpace, jsSpace x = true := by
    intro x hx
    exact h2 x (List.mem_reverse.mpr hx)
  intro c hc
  rw [← List.takeWhile_append_dropWhile jsSpace l] at hc
  rcases List.mem_append.mp hc with h4 | h4
  · exact List.all_eq_true.mp takeWhile_all_sat c h4
  · exact h3 c h4

theorem blank_kvParse {l : List Char} (h : jsTrimList l = []) : kvParse l = none := by
  cases l with
  | nil => rfl
  | cons c rest =>
    exact kvParse_of_head_space (blank_all_space h c (List.mem_cons_self _ _))

theorem blank_listItemParse {l : List Char} (h : jsTrimList l = []) :
    listItemParse l = none := by
  cases l with
  | nil => rfl
  | cons c rest =>
    have hdrop : (c :: rest).dropWhile jsSpace = [] :=
      List.dropWhile_eq_nil_iff.mpr (blank_all_space h)
    unfold listItemParse
    rw [hdrop]
    cases htake : (c :: rest).takeWhile jsSpace with
    | nil => rfl
    | cons a as => rfl

theorem listItemParse_some_head {l : List Char} {item : String}
    (h : listItemParse l = some item) : l.takeWhile jsSpace ≠ [] := by
  unfold listItemParse at h
  split at h
  · exact Option.noConfusion h
  · rename_i hne
    exact hne
  · exact Option.noConfusion h

theorem listItem_not_kv {l : List Char} {item : String}
    (h : listItemParse l = some item) : kvParse l = none := by
  have hh := listItemParse_some_head h
  cases l with
  | nil => exact absurd rfl hh
  | cons c rest =>
    by_cases hc : jsSpace c = true
    · exact kvParse_of_head_space hc
    · exfalso
      apply hh
      rw [List.takeWhile_cons]
      simp [hc]

theorem commitList_currentKey (st : PState) : (commitList st).currentKey = st.currentKey := by
  unfold commitList
  split
  · split
    · rfl
    · rfl
  · rfl

theorem commitList_currentList {st : PState} (h0 : st.currentKey = none → st.currentList = []) :
    (commitList st).currentList = [] := by
  unfold commitList
  split
  · rename_i k heq
    split
    · rename_i hemp
      exact List.isEmpty_iff.mp hemp
    · rfl
  · rename_i heq
    exact h0 heq

theorem commit_none {st : PState} {k : String}
    (hres : lookupKV st.result k = none)
    (hck : st.currentKey = some k → st.currentList = []) :
    lookupKV (commitList st).result k = none := by
  unfold commitList
  split
  · rename_i k2 heq
    by_cases hk : k2 = k
    · subst hk
      rw [if_pos (List.isEmpty_iff.mpr (hck heq))]
      exact hres
    · split
      · exact hres
      · show lookupKV (upsert st.result k2 (.list st.currentList)) k = none
        rw [lookupKV_upsert, if_neg hk]
        exact hres
  · exact hres

theorem noLIBeforeKv_cons (l : List Char) (ls : List (List Char)) :
    noLIBeforeKv (l :: ls) = if isKvB l then true else (!isLiB l) && noLIBeforeKv ls := rfl

theorem onlyEmptyDecls_tail {k : String} {l : List Char} {ls : List (List Char)}
    (h : onlyEmptyDecls k (l :: ls) = true) : onlyEmptyDecls k ls = true := by
  unfold onlyEmptyDecls at h ⊢
  rw [List.all_cons] at h
  exact (Bool.and_eq_true_iff.mp h).2

theorem onlyEmptyDecls_head {k k2 v : String} {l : List Char} {ls : List (List Char)}
    (h : onlyEmptyDecls k (l :: ls) = true) (hkv : kvParse l = some (k2, v)) :
    (k2 != k || v == "") = true := by
  unfold onlyEmptyDecls at h
  rw [List.all_cons] at h
  have h1 := (Bool.and_eq_true_iff.mp h).1
  rw [hkv] at h1
  exact h1

theorem danglingSafe_tail {k : String} {l : List Char} {ls : List (List Char)}
    (h : danglingSafe k (l :: ls) = true) : danglingSafe k ls = true := by
  unfold danglingSafe at h
  exact (Bool.and_eq_true_iff.mp h).2

theorem danglingSafe_head {k k2 v : String} {l : List Char} {ls : List (List Char)}
    (h : danglingSafe k (l :: ls) = true) (hkv : kvParse l = some (k2, v))
    (hk : k2 = k) (hv : v = "") : noLIBeforeKv ls = true := by
  unfold danglingSafe at h
  have h1 := (Bool.and_eq_true_iff.mp h).1
  rw [hkv] at h1
  subst hk
  subst hv
  simpa using h1

theorem procLine_blank {st : PState} {l : List Char} (h : jsTrimList l = []) :
    procLine st l = st := by
  unfold procLine
  rw [if_pos h]

theorem procLine_li_none {st : PState} {l : List Char} {item : String}
    (hb : ¬jsTrimList l = []) (hli : listItemParse l = some item)
    (hck : st.currentKey = none) : procLine st l = st := by
  unfold procLine
  rw [if_neg hb]
  simp only [hli, hck]

theorem procLine_li_some {st : PState} {l : List Char} {item : String} {k2 : String}
    (hb : ¬jsTrimList l = []) (hli : listItemParse l = some item)
    (hck : st.currentKey = some k2) :
    procLine st l = { st with currentList := st.currentList ++ [item] } := by
  unfold procLine
  rw [if_neg hb]
  simp only [hli, hck]

theorem procLine_junk {st : PState} {l : List Char}
    (hb : ¬jsTrimList l = []) (hli : listItemParse l = none)
    (hkv : kvParse l = none) : procLine st l = st := by
  unfold procLine
  rw [if_neg hb]
  simp only [hli, hkv]

theorem procLine_kv_dangling {st : PState} {l : List Char} {k2 v : String}
    (hb : ¬jsTrimList l = []) (hli : listItemParse l = none)
    (hkv : kvParse l = some (k2, v)) (hv : v = "") :
    procLine st l = { commitList st with currentKey := some k2 } := by
  unfold procLine
  rw [if_neg hb]
  simp only [hli, hkv]
  rw [if_pos hv]

theorem procLine_kv_scalar {st : PState} {l : List Char} {k2 v : String}
    (hb : ¬jsTrimList l = []) (hli : listItemParse l = none)
    (hkv : kvParse l = some (k2, v)) (hv : ¬v = "") :
    procLine st l =
      { commitList st with
        result := upsert (commitList st).result k2 (.str (String.mk (stripQuotes v.data))),
        currentKey := none } := by
  unfold procLine
  rw [if_neg hb]
  simp only [hli, hkv]
  rw [if_neg hv]

theorem c6_aux (k : String) :
    ∀ (ls : List (List Char)) (st : PState),
      lookupKV st.result k = none →
      (st.currentKey = none → st.currentList = []) →
      (st.currentKey = some k → st.currentList = []) →
      (st.currentKey = some k → noLIBeforeKv ls = true) →
      onlyEmptyDecls k ls = true →
      danglingSafe k ls = true →
      lookupKV (commitList (ls.foldl procLine st)).result k = none := by
  intro ls
  induction ls with
  | nil =>
    intro st h1 _ h3 _ _ _
    exact commit_none h1 h3
  | cons l ls ih =>
    intro st h1 h2 h3 h4 h5 h6
    rw [List.foldl_cons]
    have h5t : onlyEmptyDecls k ls = true := onlyEmptyDecls_tail h5
    have h6t : danglingSafe k ls = true := danglingSafe_tail h6
    by_cases hb : jsTrimList l = []
    · rw [procLine_blank hb]
      refine ih st h1 h2 h3 ?_ h5t h6t
      intro hck
      have hno := h4 hck
      rw [noLIBeforeKv_cons] at hno
      have hkv0 : isKvB l = false := by
        unfold isKvB
        rw [blank_kvParse hb]
        rfl
      have hli0 : isLiB l = false := by
        unfold isLiB
        rw [blank_listItemParse hb]
        rfl
      rw [hkv0, hli0] at hno
      simpa using hno
    · cases hli : listItemParse l with
      | some item =>
        cases hck : st.currentKey with
        | none =>
          rw [procLine_li_none hb hli hck]
          refine ih st h1 h2 h3 ?_ h5t h6t
          intro hcon
          rw [hck] at hcon
          exact Option.noConfusion hcon
        | some k2 =>
          by_cases hkk : k2 = k
          · exfalso
            subst hkk
            have hno := h4 hck
            rw [noLIBeforeKv_cons] at hno
            have hkv0 : isKvB l = false := by
              unfold isKvB
              rw [listItem_not_kv hli]
              rfl
            have hli1 : isLiB l = true := by
              unfold isLiB
              rw [hli]
              rfl
            rw [hkv0, hli1] at hno
            simp at hno
          · rw [procLine_li_some hb hli hck]
            refine ih _ h1 ?_ ?_ ?_ h5t h6t
            · intro hcon
              rw [show ({ st with currentList := st.currentList ++ [item] } : PState).currentKey =
                st.currentKey from rfl, hck] at hcon
              exact Option.noConfusion hcon
            · intro hcon
              rw [show ({ st with currentList := st.currentList ++ [item] } : PState).currentKey =
                st.currentKey from rfl, hck] at hcon
              exact absurd (Option.some.inj hcon) hkk
            · intro hcon
              rw [show ({ st with currentList := st.currentList ++ [item] } : PState).currentKey =
                st.currentKey from rfl, hck] at hcon
              exact absurd (Option.some.inj hcon) hkk
      | none =>
        cases hkv : kvParse l with
        | none =>
          rw [procLine_junk hb hli hkv]
          refine ih st h1 h2 h3 ?_ h5t h6t
          intro hck
          have hno := h4 hck
          rw [noLIBeforeKv_cons] at hno
          have hkv0 : isKvB l = false := by
            unfold isKvB
            rw [hkv]
            rfl
          have hli0 : isLiB l = false := by
            unfold isLiB
            rw [hli]
            rfl
          rw [hkv0, hli0] at hno
          simpa using hno
        | some kv =>
          obtain ⟨k2, v⟩ := kv
          have hc1 : lookupKV (commitList st).result k = none := commit_none h1 h3
          have hc3 : (commitList st).currentList = [] := commitList_currentList h2
          by_cases hv : v = ""
          · rw [procLine_kv_dangling hb hli hkv hv]
            refine ih _ hc1 ?_ ?_ ?_ h5t h6t
            · intro hcon
              exact Option.noConfusion hcon
            · intro _
              exact hc3
            · intro hcon
              have hk2 : k2 = k := Option.some.inj hcon
              exact danglingSafe_head h6 hkv hk2 hv
          · rw [procLine_kv_scalar hb hli hkv hv]
            have hk2 : k2 ≠ k := by
              have hhead := onlyEmptyDecls_head h5 hkv
              rcases Bool.or_eq_true_iff.mp hhead with hne | heq
              · exact bne_iff_ne.mp hne
              · exact absurd (eq_of_beq heq) hv
            refine ih _ ?_ ?_ ?_ ?_ h5t h6t
            · show lookupKV (upsert (commitList st).result k2 _) k = none
              rw [lookupKV_upsert, if_neg hk2]
              exact hc1
            · intro _
              exact hc3
            · intro hcon
              exact Option.noConfusion hcon
            · intro hcon
              exact Option.noConfusion hcon

/-- Claim C6.  A front-matter key that is only ever declared with an
empty value (never finalised as a scalar) and whose every dangling
declaration is followed by no list-item line before the next key/value
line is absent from the parsed mapping: it is silently dropped, with no
error and no empty entry. -/
theorem claim_C6 (content : String) (k : String)
    (h1 : onlyEmptyDecls k (fmLines content) = true)
    (h2 : danglingSafe k (fmLines content) = true) :
    lookupKV (parseYamlFrontmatter content) k = none := by
  unfold fmLines at h1 h2
  unfold parseYamlFrontmatter
  cases hsp : fmSplit content.data with
  | none => rfl
  | some p =>
    obtain ⟨inner, me⟩ := p
    rw [hsp] at h1 h2
    unfold parseLines
    exact c6_aux k (splitChar '\n' inner) ⟨[], none, []⟩ rfl (fun _ => rfl) (fun _ => rfl)
      (fun hcon => Option.noConfusion hcon) h1 h2

/-- Claim C6, witness: the spec's own example.  In a block whose lines
are `tools:` and `model: opus`, the key `tools` is declared empty with
no following list items, and the parsed mapping does not contain it
(while containing `model`). -/
theorem claim_C6_witness :
    onlyEmptyDecls "tools" (fmLines "---\ntools:\nmodel: opus\n---\nbody\n") = true ∧
    danglingSafe "tools" (fmLines "---\ntools:\nmodel: opus\n---\nbody\n") = true ∧
    lookupKV (parseYamlFrontmatter "---\ntools:\nmodel: opus\n---\nbody\n") "tools" = none := by
  refine ⟨by decide, by decide, claim_C6 _ _ (by decide) (by decide)⟩

end Scanner

section SanityChecks
open Scanner
example : parseYamlFrontmatter "---\nname: x\n---\nbody" = [("name", .str "x")] := by decide
example : parseYamlFrontmatter "---\ntools:\nmodel: opus\n---\nbody\n" = [("model", .str "opus")] := by decide
example : parseYamlFrontmatter "---\ndescription: \"Does X\"\n---\nrest\n" = [("description", .str "Does X")] := by decide
example : parseYamlFrontmatter "---\ntools:\n  - a\n  - b\nmodel: m\n---\nx\n" =
    [("tools", .list ["a", "b"]), ("model", .str "m")] := by decide
example : extractBodyContent "---\nname: x\n---\n  body text\n" = "body text" := by decide
example : parseYamlFrontmatter "---\nargument-hint: file\n---\nbody\n" = [] := by decide
example : parseListField (some (.str " a , b ")) = ["a", "b"] := by decide
example : parseListField (some (.list [" a ", ""])) = [" a ", ""] := by decide
example : extractTriggers "## Triggers\n- first\n- second\n## End" = ["first", "second"] := by decide
example : findRelationships
    [{ id := "agent:a", name := "a", description := "", tools := [], model := "",
       subagents := ["a"], skills := [], filePath := "f", systemPrompt := "" }]
    [] [] (fun _ => none)
    = [{ source := "agent:a", target := "agent:a", type := EdgeType.calls }] := by decide
end SanityChecks
